import Mathlib

/-!
Verification development for the mugi multi-remote git manager
(packages `cli`, `ui`, `config`, `git`, `remote`, `manage`, `main`).

The Go sources are shallowly embedded here:

* pure functions become Lean functions with the source's names;
* the external collaborators (`os`, the `git` executable) become an
  explicit `Env` record holding the observable git state (which paths
  exist, which are working copies, the configured URL of each remote)
  together with outcome oracles for the fallible external calls;
* every external call performed by an embedded function is recorded in
  a returned `List Effect` trace, in the order the source performs it;
* Go maps are embedded as insertion-ordered association lists with
  in-place update (`setAssoc`), which realises one linearisation of
  Go's unspecified iteration order; theorems quantify over the list,
  hence over every possible order.
-/

namespace Mugi

/-- `remote.Operation` (package `remote`).  `Pull` is the zero value of
the Go type, a fact the source relies on (`if op == 0`). -/
inductive Operation where
  | Pull
  | Push
  | Fetch
  deriving DecidableEq, Repr

/-- `ui.Task` (package `ui`).  The zero value of `Op` in Go is
`remote.Pull`; `BuildTasks` leaves `Op` at its zero value. -/
structure Task where
  RepoName : String
  RemoteName : String
  RemoteURL : String
  RepoPath : String
  Op : Operation
  deriving DecidableEq, Repr

instance : Inhabited Task := ⟨⟨"", "", "", "", Operation.Pull⟩⟩

/-- The observable outcome of one external `git` invocation
(`git.Result`, restricted to the fields the embedded code reads:
captured output and presence of an error). -/
structure ExecResult where
  output : String
  error : Option String
  deriving DecidableEq, Repr

/-- One external call made by the program.  `statCheck`, `isRepoCheck`
and `getRemoteURL` are queries (`os.Stat`, `git.IsRepo`,
`git.GetRemoteURL`); the others are mutations.  `mkdirParents p`
stands for `os.MkdirAll(filepath.Dir(p), 0o755)`. -/
inductive Effect where
  | statCheck (path : String)
  | isRepoCheck (path : String)
  | getRemoteURL (path name : String)
  | addRemote (path name url : String)
  | setRemoteURL (path name url : String)
  | renameRemote (path oldName newName : String)
  | clone (url path : String)
  | mkdirParents (path : String)
  | execute (op : Operation) (path remoteName : String) (force : Bool)
  deriving DecidableEq, Repr

/-- Whether an effect is one of the two remote-URL mutations issued by
the reconciler (`git.AddRemote` / `git.SetRemoteURL`). -/
def Effect.isMutation : Effect → Bool
  | Effect.addRemote _ _ _ => true
  | Effect.setRemoteURL _ _ _ => true
  | _ => false

/-- Whether an effect is an executor invocation (`git.Execute`). -/
def Effect.isExecute : Effect → Bool
  | Effect.execute _ _ _ _ => true
  | _ => false

/-- The external world as the program observes it.

`url p n` is the URL configured for remote `n` of the working copy at
`p`, with `""` meaning absent: `git.GetRemoteURL` returns `""` both
when the remote does not exist and when its URL is empty, and the Go
code only ever sees that conflated view.  The `...Res` fields are
outcome oracles for the fallible external calls; they are part of the
environment, so theorems quantify over every possible outcome. -/
structure Env where
  home : Option String
  abs : String → Option String
  statExists : String → Bool
  isRepo : String → Bool
  url : String → String → String
  mkdirParentsRes : String → Option String
  cloneRes : String → String → ExecResult
  renameRes : String → String → String → ExecResult
  addRes : String → String → String → ExecResult
  executeRes : Operation → String → String → Bool → ExecResult

/-- State update performed by a successful `git remote add` or
`git remote set-url`: the configured URL of exactly one
(path, remote-name) pair changes. -/
def Env.setURL (env : Env) (p n u : String) : Env :=
  { env with url := fun p' n' => if p' = p ∧ n' = n then u else env.url p' n' }

/-- State update performed by a successful `git clone url path`: the
path now exists, is a working copy, and has a remote `origin` at the
cloned URL. -/
def Env.doClone (env : Env) (u p : String) : Env :=
  { env with
    statExists := fun p' => if p' = p then true else env.statExists p'
    isRepo := fun p' => if p' = p then true else env.isRepo p'
    url := fun p' n' => if p' = p ∧ n' = "origin" then u else env.url p' n' }

/-- State update performed by a successful `git remote rename old new`:
the URL moves from the old name to the new one. -/
def Env.doRename (env : Env) (p old new : String) : Env :=
  let u := env.url p old
  (env.setURL p new u).setURL p old ""

@[simp] theorem Env.setURL_isRepo (env : Env) (p n u : String) :
    (env.setURL p n u).isRepo = env.isRepo := rfl

@[simp] theorem Env.setURL_statExists (env : Env) (p n u : String) :
    (env.setURL p n u).statExists = env.statExists := rfl

theorem Env.setURL_url_self (env : Env) (p n u : String) :
    (env.setURL p n u).url p n = u := by
  simp [Env.setURL]

theorem Env.setURL_url_other (env : Env) (p n u p' n' : String)
    (h : ¬(p' = p ∧ n' = n)) : (env.setURL p n u).url p' n' = env.url p' n' := by
  simp [Env.setURL, h]

/-- The deduplication key used by `syncRemotes`
(`task.RepoPath + ":" + task.RemoteName`). -/
def syncKey (t : Task) : String := t.RepoPath ++ ":" ++ t.RemoteName

/-- Loop body of `ui.syncRemotes`: walks the task list with the `seen`
set accumulated so far, skipping already-seen keys and paths that are
not working copies, and otherwise adding or updating the remote URL so
it matches the task's configured URL. -/
def syncRemotesGo (env : Env) (seen : List String) : List Task → Env × List Effect
  | [] => (env, [])
  | t :: rest =>
    if syncKey t ∈ seen then
      syncRemotesGo env seen rest
    else
      let seen' := syncKey t :: seen
      if env.isRepo t.RepoPath then
        let current := env.url t.RepoPath t.RemoteName
        if current = "" then
          let env1 := env.setURL t.RepoPath t.RemoteName t.RemoteURL
          let r := syncRemotesGo env1 seen' rest
          (r.1, Effect.isRepoCheck t.RepoPath :: Effect.getRemoteURL t.RepoPath t.RemoteName ::
            Effect.addRemote t.RepoPath t.RemoteName t.RemoteURL :: r.2)
        else if current ≠ t.RemoteURL then
          let env1 := env.setURL t.RepoPath t.RemoteName t.RemoteURL
          let r := syncRemotesGo env1 seen' rest
          (r.1, Effect.isRepoCheck t.RepoPath :: Effect.getRemoteURL t.RepoPath t.RemoteName ::
            Effect.setRemoteURL t.RepoPath t.RemoteName t.RemoteURL :: r.2)
        else
          let r := syncRemotesGo env seen' rest
          (r.1, Effect.isRepoCheck t.RepoPath :: Effect.getRemoteURL t.RepoPath t.RemoteName :: r.2)
      else
        let r := syncRemotesGo env seen' rest
        (r.1, Effect.isRepoCheck t.RepoPath :: r.2)

/-- `ui.syncRemotes`: the remote reconciler.  Returns the updated
world plus the trace of external calls made. -/
def syncRemotes (env : Env) (tasks : List Task) : Env × List Effect :=
  syncRemotesGo env [] tasks

/-- Loop body of `ui.adjustPullTasks` with the `firstPerRepo` set made
explicit. -/
def adjustPullTasksGo (seen : List String) : List Task → List Task
  | [] => []
  | t :: rest =>
    if t.RepoPath ∈ seen then
      { t with Op := Operation.Fetch } :: adjustPullTasksGo seen rest
    else
      { t with Op := Operation.Pull } :: adjustPullTasksGo (t.RepoPath :: seen) rest

/-- `ui.adjustPullTasks`: downgrades every task after the first one
per local path from Pull to Fetch. -/
def adjustPullTasks (tasks : List Task) : List Task :=
  adjustPullTasksGo [] tasks

/-- The four fields of a task other than `Op`, used to state that
`adjustPullTasks` only rewrites the operation. -/
def Task.sansOp (t : Task) : String × String × String × String :=
  (t.RepoName, t.RemoteName, t.RemoteURL, t.RepoPath)

theorem adjustPullTasksGo_sansOp (tasks : List Task) :
    ∀ seen, (adjustPullTasksGo seen tasks).map Task.sansOp = tasks.map Task.sansOp := by
  induction tasks with
  | nil => intro seen; simp [adjustPullTasksGo]
  | cons t rest ih =>
    intro seen
    by_cases hs : t.RepoPath ∈ seen <;>
      simp [adjustPullTasksGo, hs, ih, Task.sansOp]

/-- C10: `adjustPullTasks` returns a list of the same length in the
same order in which each output task agrees with the corresponding
input task on `RepoName`, `RemoteName`, `RemoteURL` and `RepoPath`;
only `Op` may differ. -/
theorem adjustPullTasks_frame (tasks : List Task) :
    (adjustPullTasks tasks).length = tasks.length ∧
    (adjustPullTasks tasks).map Task.sansOp = tasks.map Task.sansOp := by
  have h := adjustPullTasksGo_sansOp tasks []
  refine ⟨?_, h⟩
  have := congrArg List.length h
  simpa [adjustPullTasks] using this

theorem adjustPullTasksGo_filter_ops (p : String) (tasks : List Task) :
    ∀ seen : List String,
      ((adjustPullTasksGo seen tasks).filter (fun t => t.RepoPath == p)).map Task.Op =
        if p ∈ seen then
          List.replicate ((tasks.filter (fun t => t.RepoPath == p)).length) Operation.Fetch
        else
          match tasks.filter (fun t => t.RepoPath == p) with
          | [] => []
          | _ :: tl => Operation.Pull :: List.replicate tl.length Operation.Fetch := by
  induction tasks with
  | nil => intro seen; simp [adjustPullTasksGo]
  | cons t rest ih =>
    intro seen
    by_cases hp : t.RepoPath = p
    · subst hp
      by_cases hs : t.RepoPath ∈ seen
      · simp [adjustPullTasksGo, hs, List.filter_cons, ih, List.replicate_succ]
      · simp [adjustPullTasksGo, hs, List.filter_cons, ih, List.mem_cons]
    · by_cases hs : t.RepoPath ∈ seen
      · simp [adjustPullTasksGo, hs, List.filter_cons, hp, ih]
      · have hp' : ¬p = t.RepoPath := fun h => hp h.symm
        have hmem : p ∈ t.RepoPath :: seen ↔ p ∈ seen := by
          simp [List.mem_cons, hp']
        simp [adjustPullTasksGo, hs, List.filter_cons, hp, ih, hmem]

/-- C1: among the tasks produced by `adjustPullTasks`, for each local
path `p` the first task targeting `p` (in list order) has operation
Pull and every later task targeting `p` has operation Fetch; hence a
path occurring `k` times yields exactly one Pull task and `k - 1`
Fetch tasks. -/
theorem adjustPullTasks_first_pull (tasks : List Task) (p : String) :
    ((adjustPullTasks tasks).filter (fun t => t.RepoPath == p)).map Task.Op =
      match tasks.filter (fun t => t.RepoPath == p) with
      | [] => []
      | _ :: tl => Operation.Pull :: List.replicate tl.length Operation.Fetch := by
  have h := adjustPullTasksGo_filter_ops p tasks []
  simpa [adjustPullTasks] using h

theorem syncRemotesGo_isRepo (tasks : List Task) :
    ∀ env seen, (syncRemotesGo env seen tasks).1.isRepo = env.isRepo := by
  induction tasks with
  | nil => intro env seen; rfl
  | cons t rest ih =>
    intro env seen
    simp only [syncRemotesGo]
    split_ifs <;> simp [ih]

theorem syncRemotesGo_url_seen (tasks : List Task) :
    ∀ env seen p n, p ++ ":" ++ n ∈ seen →
      (syncRemotesGo env seen tasks).1.url p n = env.url p n := by
  induction tasks with
  | nil => intro env seen p n _; rfl
  | cons t rest ih =>
    intro env seen p n hmem
    have hmem' : p ++ ":" ++ n ∈ syncKey t :: seen := List.mem_cons_of_mem _ hmem
    simp only [syncRemotesGo]
    split_ifs with h1 h2 h3 h4
    · exact ih env seen p n hmem
    · -- AddRemote branch: the mutated pair has an unseen key, ours is seen
      have hne : ¬(p = t.RepoPath ∧ n = t.RemoteName) := by
        rintro ⟨rfl, rfl⟩; exact h1 hmem
      simp only []
      rw [ih _ _ p n hmem']
      exact Env.setURL_url_other env t.RepoPath t.RemoteName t.RemoteURL p n
        (by rintro ⟨rfl, rfl⟩; exact h1 hmem)
    · -- SetRemoteURL branch
      simp only []
      rw [ih _ _ p n hmem']
      exact Env.setURL_url_other env t.RepoPath t.RemoteName t.RemoteURL p n
        (by rintro ⟨rfl, rfl⟩; exact h1 hmem)
    · exact ih _ _ p n hmem'
    · exact ih _ _ p n hmem'

theorem find?_cons_true {α : Type} {p : α → Bool} {a : α} {l : List α}
    (h : p a = true) : (a :: l).find? p = some a := by
  simp [List.find?_cons, h]

theorem find?_cons_false {α : Type} {p : α → Bool} {a : α} {l : List α}
    (h : p a = false) : (a :: l).find? p = l.find? p := by
  simp [List.find?_cons, h]

theorem syncRemotesGo_url_first (tasks : List Task) :
    ∀ env seen t, tasks.find? (fun u => syncKey u == syncKey t) = some t →
      syncKey t ∉ seen → env.isRepo t.RepoPath = true →
      (syncRemotesGo env seen tasks).1.url t.RepoPath t.RemoteName = t.RemoteURL := by
  induction tasks with
  | nil => intro env seen t hfind; simp at hfind
  | cons a rest ih =>
    intro env seen t hfind hseen hrepo
    cases hkey : (syncKey a == syncKey t) with
    | true =>
      rw [@find?_cons_true Task (fun u => syncKey u == syncKey t) a rest hkey] at hfind
      injection hfind with heq
      subst heq
      have hmemSelf : a.RepoPath ++ ":" ++ a.RemoteName ∈ syncKey a :: seen :=
        List.mem_cons_self (syncKey a) seen
      simp only [syncRemotesGo, if_neg hseen, if_pos hrepo]
      by_cases hcur : env.url a.RepoPath a.RemoteName = ""
      · simp only [if_pos hcur]
        exact (syncRemotesGo_url_seen rest
            (env.setURL a.RepoPath a.RemoteName a.RemoteURL) (syncKey a :: seen)
            a.RepoPath a.RemoteName hmemSelf).trans
          (Env.setURL_url_self env a.RepoPath a.RemoteName a.RemoteURL)
      · simp only [if_neg hcur]
        by_cases hne : env.url a.RepoPath a.RemoteName ≠ a.RemoteURL
        · simp only [if_pos hne]
          exact (syncRemotesGo_url_seen rest
              (env.setURL a.RepoPath a.RemoteName a.RemoteURL) (syncKey a :: seen)
              a.RepoPath a.RemoteName hmemSelf).trans
            (Env.setURL_url_self env a.RepoPath a.RemoteName a.RemoteURL)
        · simp only [if_neg hne]
          exact (syncRemotesGo_url_seen rest env (syncKey a :: seen)
            a.RepoPath a.RemoteName hmemSelf).trans (not_not.mp hne)
    | false =>
      rw [@find?_cons_false Task (fun u => syncKey u == syncKey t) a rest hkey] at hfind
      have hkne : syncKey a ≠ syncKey t := ne_of_beq_false hkey
      have hseen' : syncKey t ∉ syncKey a :: seen := by
        intro hmem
        rcases List.mem_cons.mp hmem with h | h
        · exact hkne h.symm
        · exact hseen h
      simp only [syncRemotesGo]
      split_ifs with h1 h2 h3 h4
      · exact ih env seen t hfind hseen hrepo
      · exact ih _ _ t hfind hseen' (by simp [hrepo])
      · exact ih _ _ t hfind hseen' (by simp [hrepo])
      · exact ih _ _ t hfind hseen' hrepo
      · exact ih _ _ t hfind hseen' hrepo

theorem syncRemotesGo_no_mutation (tasks : List Task) :
    ∀ env seen,
      (∀ t : Task, tasks.find? (fun u => syncKey u == syncKey t) = some t →
        syncKey t ∉ seen → env.isRepo t.RepoPath = true →
          env.url t.RepoPath t.RemoteName = t.RemoteURL ∧ t.RemoteURL ≠ "") →
      (syncRemotesGo env seen tasks).1 = env ∧
        ∀ e ∈ (syncRemotesGo env seen tasks).2, e.isMutation = false := by
  induction tasks with
  | nil => intro env seen _; exact ⟨rfl, by simp [syncRemotesGo]⟩
  | cons a rest ih =>
    intro env seen hyp
    by_cases hseenA : syncKey a ∈ seen
    · have hrest := ih env seen (fun t hf hs hr => by
        refine hyp t ?_ hs hr
        have hkne : (syncKey a == syncKey t) = false := by
          by_cases h : syncKey a = syncKey t
          · exact absurd (h ▸ hseenA) hs
          · simp [h]
        rw [@find?_cons_false Task (fun u => syncKey u == syncKey t) a rest hkne]
        exact hf)
      simpa [syncRemotesGo, hseenA] using hrest
    · have hself : ((a :: rest).find? (fun u => syncKey u == syncKey a)) = some a :=
        @find?_cons_true Task (fun u => syncKey u == syncKey a) a rest (by simp)
      have hlift : ∀ t : Task, rest.find? (fun u => syncKey u == syncKey t) = some t →
          syncKey t ∉ syncKey a :: seen → env.isRepo t.RepoPath = true →
          env.url t.RepoPath t.RemoteName = t.RemoteURL ∧ t.RemoteURL ≠ "" := by
        intro t hf hs hr
        have hs' : syncKey t ∉ seen := fun h => hs (List.mem_cons_of_mem _ h)
        have hkne : (syncKey a == syncKey t) = false := by
          by_cases h : syncKey a = syncKey t
          · exact absurd (by simp [← h]) hs
          · simp [h]
        refine hyp t ?_ hs' hr
        rw [@find?_cons_false Task (fun u => syncKey u == syncKey t) a rest hkne]
        exact hf
      by_cases hrepo : env.isRepo a.RepoPath
      · obtain ⟨hurl, hne⟩ := hyp a hself hseenA hrepo
        have hrest := ih env (syncKey a :: seen) hlift
        have hcur : ¬env.url a.RepoPath a.RemoteName = "" := by rw [hurl]; exact hne
        have hcur2 : ¬env.url a.RepoPath a.RemoteName ≠ a.RemoteURL := by
          simp [hurl]
        refine ⟨?_, ?_⟩
        · simp only [syncRemotesGo, if_neg hseenA, if_pos hrepo, if_neg hcur, if_neg hcur2]
          exact hrest.1
        · simp only [syncRemotesGo, if_neg hseenA, if_pos hrepo, if_neg hcur, if_neg hcur2]
          intro e he
          simp only [List.mem_cons] at he
          rcases he with rfl | rfl | he
          · simp [Effect.isMutation]
          · simp [Effect.isMutation]
          · exact hrest.2 e he
      · have hrest := ih env (syncKey a :: seen) hlift
        refine ⟨?_, ?_⟩
        · simp only [syncRemotesGo, if_neg hseenA, if_neg hrepo]
          exact hrest.1
        · simp only [syncRemotesGo, if_neg hseenA, if_neg hrepo]
          intro e he
          simp only [List.mem_cons] at he
          rcases he with rfl | he
          · simp [Effect.isMutation]
          · exact hrest.2 e he

/-- C5 (amended): running the reconciler twice over the same task list
with unchanged configuration is idempotent, provided every task's
configured URL is nonempty (the code cannot distinguish an empty
configured URL from an absent remote, see the counterexample): the
second run leaves the state unchanged and performs no `AddRemote` or
`SetRemoteURL` mutation, because after the first run each valid
working copy's configured URL for each deduplicated (path, remote
name) pair already equals the task's URL. -/
theorem syncRemotes_idempotent (env : Env) (tasks : List Task)
    (h : ∀ t ∈ tasks, t.RemoteURL ≠ "") :
    (syncRemotes (syncRemotes env tasks).1 tasks).1 = (syncRemotes env tasks).1 ∧
    ∀ e ∈ (syncRemotes (syncRemotes env tasks).1 tasks).2, e.isMutation = false := by
  unfold syncRemotes
  apply syncRemotesGo_no_mutation
  intro t hfind hseen hrepo
  refine ⟨?_, h t (List.mem_of_find?_eq_some hfind)⟩
  have hrepo0 : env.isRepo t.RepoPath = true := by
    rw [← syncRemotesGo_isRepo tasks env []]; exact hrepo
  exact syncRemotesGo_url_first tasks env [] t hfind (by simp) hrepo0

/-- Environment for the C5 counterexample and witness: every path is a
working copy and no remote has a URL configured yet. -/
def envC5 : Env where
  home := none
  abs := fun _ => none
  statExists := fun _ => true
  isRepo := fun _ => true
  url := fun _ _ => ""
  mkdirParentsRes := fun _ => none
  cloneRes := fun _ _ => ⟨"", none⟩
  renameRes := fun _ _ _ => ⟨"", none⟩
  addRes := fun _ _ _ => ⟨"", none⟩
  executeRes := fun _ _ _ _ => ⟨"", none⟩

/-- Task list with an empty configured URL, the input refuting C5 as
stated. -/
def cexTasksC5 : List Task := [⟨"r", "m", "", "p", Operation.Pull⟩]

/-- C5 counterexample: for a task whose configured `RemoteURL` is the
empty string, the first reconciler run issues `AddRemote p m ""`, and
because `GetRemoteURL` returns `""` both for an absent remote and for
an empty URL, the second consecutive run issues the very same
`AddRemote` mutation again — the claim's idempotence, quantified over
every task list, is false. -/
theorem syncRemotes_idempotent_cex :
    ((syncRemotes (syncRemotes envC5 cexTasksC5).1 cexTasksC5).2.any
      Effect.isMutation) = true := by decide

/-- Task list with a nonempty URL, used to witness
`syncRemotes_idempotent`. -/
def witTasksC5 : List Task := [⟨"r", "m", "u", "p", Operation.Pull⟩]

theorem syncRemotes_idempotent_witness :
    (∀ t ∈ witTasksC5, t.RemoteURL ≠ "") ∧
      ∀ e ∈ (syncRemotes (syncRemotes envC5 witTasksC5).1 witTasksC5).2,
        e.isMutation = false :=
  ⟨by decide, (syncRemotes_idempotent envC5 witTasksC5 (by decide)).2⟩

/-- Go-map upsert: sets the value of a key in an insertion-ordered
association list, replacing in place if present.  This is how the
embedding represents assignment into a Go `map[string]T`. -/
def setAssoc {α : Type} : List (String × α) → String → α → List (String × α)
  | [], k, v => [(k, v)]
  | (k', v') :: rest, k, v =>
    if k' = k then (k, v) :: rest else (k', v') :: setAssoc rest k v

/-- `ui.RepoInit`.  `Remotes` embeds the Go map; its list order stands
for the (unspecified) map iteration order, so quantifying over
`RepoInit` covers every order. -/
structure RepoInit where
  Name : String
  Path : String
  Remotes : List (String × String)
  deriving DecidableEq, Repr

/-- `ui.InitResult`. -/
structure InitResult where
  Repo : String
  Output : String
  Error : Option String
  Success : Bool
  deriving DecidableEq, Repr

/-- `ui.collectRepoInit`: groups every task sharing `path` into one
`RepoInit`, later tasks overwriting earlier URLs for the same remote
name exactly as the Go map assignment does. -/
def collectRepoInit (tasks : List Task) (path name : String) : RepoInit :=
  { Name := name, Path := path,
    Remotes := tasks.foldl (fun acc t =>
      if t.RepoPath = path then setAssoc acc t.RemoteName t.RemoteURL else acc) [] }

/-- Loop body of `ui.NeedsInit`, with the `seen` path set explicit.
`os.Stat`/`os.IsNotExist` is embedded as the `statExists` query and
`git.IsRepo` as the `isRepo` query; both calls are recorded. -/
def NeedsInitGo (env : Env) (tasks : List Task) (seen : List String) :
    List Task → List RepoInit × List Effect
  | [] => ([], [])
  | t :: rest =>
    if t.RepoPath ∈ seen then NeedsInitGo env tasks seen rest
    else
      let seen' := t.RepoPath :: seen
      if ¬env.statExists t.RepoPath then
        let k := NeedsInitGo env tasks seen' rest
        (collectRepoInit tasks t.RepoPath t.RepoName :: k.1,
          Effect.statCheck t.RepoPath :: k.2)
      else if ¬env.isRepo t.RepoPath then
        let k := NeedsInitGo env tasks seen' rest
        (collectRepoInit tasks t.RepoPath t.RepoName :: k.1,
          Effect.statCheck t.RepoPath :: Effect.isRepoCheck t.RepoPath :: k.2)
      else
        let k := NeedsInitGo env tasks seen' rest
        (k.1, Effect.statCheck t.RepoPath :: Effect.isRepoCheck t.RepoPath :: k.2)

/-- `ui.NeedsInit`: one `RepoInit` per distinct path that is missing
or not a working copy. -/
def NeedsInit (env : Env) (tasks : List Task) : List RepoInit × List Effect :=
  NeedsInitGo env tasks [] tasks

/-- The remote chosen as clone source by `ui.InitRepo` (its
`for ... break` over the Go map picks an arbitrary entry; in the
embedding that is the head of the list, with the Go zero values
`("", "")` for an empty map). -/
def primaryRemote (init : RepoInit) : String × String :=
  init.Remotes.headD ("", "")

/-- The `for name, url := range init.Remotes` loop at the end of
`ui.InitRepo`: adds every remote except the primary, stopping at the
first failure and returning that step's `git` result. -/
def addRemainingRemotes (env : Env) (path firstRemote : String) :
    List (String × String) → Except ExecResult (List String) × List Effect × Env
  | [] => (Except.ok [], [], env)
  | (name, u) :: rest =>
    if name = firstRemote then addRemainingRemotes env path firstRemote rest
    else
      let r := env.addRes path name u
      match r.error with
      | some _ => (Except.error r, [Effect.addRemote path name u], env)
      | none =>
        let env1 := env.setURL path name u
        let k := addRemainingRemotes env1 path firstRemote rest
        (k.1.map (fun outs => ("Added remote " ++ name) :: outs),
          Effect.addRemote path name u :: k.2.1, k.2.2)

/-- `ui.InitRepo`: create parent directories, clone from the primary
remote, rename `origin` to the primary's canonical name, then add the
remaining remotes, aborting at the first failing step with that
step's error. -/
def InitRepo (env : Env) (init : RepoInit) : InitResult × List Effect × Env :=
  let firstRemote := (primaryRemote init).1
  let firstURL := (primaryRemote init).2
  match env.mkdirParentsRes init.Path with
  | some e =>
    ({ Repo := init.Name, Output := e, Error := some e, Success := false },
      [Effect.mkdirParents init.Path], env)
  | none =>
    let cloneR := env.cloneRes firstURL init.Path
    match cloneR.error with
    | some e =>
      ({ Repo := init.Name, Output := cloneR.output, Error := some e, Success := false },
        [Effect.mkdirParents init.Path, Effect.clone firstURL init.Path], env)
    | none =>
      let env1 := env.doClone firstURL init.Path
      let renameR := env.renameRes init.Path "origin" firstRemote
      match renameR.error with
      | some e =>
        ({ Repo := init.Name, Output := renameR.output, Error := some e, Success := false },
          [Effect.mkdirParents init.Path, Effect.clone firstURL init.Path,
            Effect.renameRemote init.Path "origin" firstRemote], env1)
      | none =>
        let env2 := env1.doRename init.Path "origin" firstRemote
        let k := addRemainingRemotes env2 init.Path firstRemote init.Remotes
        match k.1 with
        | Except.error r =>
          ({ Repo := init.Name, Output := r.output, Error := r.error, Success := false },
            Effect.mkdirParents init.Path :: Effect.clone firstURL init.Path ::
              Effect.renameRemote init.Path "origin" firstRemote :: k.2.1, k.2.2)
        | Except.ok outs =>
          ({ Repo := init.Name,
             Output := String.intercalate "\n" (("Cloned from " ++ firstRemote) :: outs),
             Error := none, Success := true },
            Effect.mkdirParents init.Path :: Effect.clone firstURL init.Path ::
              Effect.renameRemote init.Path "origin" firstRemote :: k.2.1, k.2.2)

/-- Sequential linearisation of the concurrently running `InitRepo`
invocations of the initialisation sub-model (`InitModel.Init` fires
one command per `RepoInit`; each command's effects are grouped
here in issue order). -/
def runInits (env : Env) : List RepoInit → List InitResult × List Effect × Env
  | [] => ([], [], env)
  | i :: rest =>
    let r := InitRepo env i
    let k := runInits r.2.2 rest
    (r.1 :: k.1, r.2.1 ++ k.2.1, k.2.2)

/-- `ui.runInit`: runs the initialisation sub-model to completion and
returns the error `"repository initialisation failed"` exactly when
some `InitResult` is failed (the source inspects the final state map,
which was set from these results, one per distinct path). -/
def runInit (env : Env) (inits : List RepoInit) : Except String Unit × List Effect × Env :=
  let k := runInits env inits
  if k.1.all InitResult.Success then (Except.ok (), k.2.1, k.2.2)
  else (Except.error "repository initialisation failed", k.2.1, k.2.2)

/-- The executor invocations issued by the scheduler (`Model.Init`
fires one `runTask` per task; linear mode issues the same tasks in
the same order, one at a time).  `Model.runTask` substitutes the
run's operation when the task's `Op` field is the Go zero value,
which is `remote.Pull`. -/
def schedTrace (op : Operation) (tasks : List Task) (force : Bool) : List Effect :=
  tasks.map fun t =>
    Effect.execute (if t.Op = Operation.Pull then op else t.Op) t.RepoPath t.RemoteName force

/-- `ui.Run`: for a pull run, first detect and initialise missing
working copies (aborting on failure), then reconcile remote URLs,
then downgrade duplicate pulls to fetches, then run the scheduler.
The `verbose` and `linear` flags do not change which external calls
are made, only presentation and concurrency, so the trace ignores
them. -/
def RunUI (env : Env) (op : Operation) (tasks : List Task)
    (verbose force linear : Bool) : Except String Unit × List Effect × Env :=
  if op = Operation.Pull then
    let ni := NeedsInit env tasks
    if ni.1.isEmpty then
      let s := syncRemotes env tasks
      (Except.ok (), ni.2 ++ s.2 ++ schedTrace op (adjustPullTasks tasks) force, s.1)
    else
      match runInit env ni.1 with
      | (Except.error e, t1, env1) => (Except.error e, ni.2 ++ t1, env1)
      | (Except.ok _, t1, env1) =>
        let s := syncRemotes env1 tasks
        (Except.ok (), ni.2 ++ t1 ++ s.2 ++ schedTrace op (adjustPullTasks tasks) force, s.1)
  else
    let s := syncRemotes env tasks
    (Except.ok (), s.2 ++ schedTrace op tasks force, s.1)

@[simp] theorem Env.setURL_addRes (env : Env) (p n u : String) :
    (env.setURL p n u).addRes = env.addRes := rfl

/-- The complete sequence of external calls a fully successful
`InitRepo` performs, in order. -/
def fullInitSeq (init : RepoInit) : List Effect :=
  Effect.mkdirParents init.Path ::
    Effect.clone (primaryRemote init).2 init.Path ::
      Effect.renameRemote init.Path "origin" (primaryRemote init).1 ::
        (init.Remotes.filter fun r => ¬r.1 = (primaryRemote init).1).map
          (fun r => Effect.addRemote init.Path r.1 r.2)

/-- Success flags of the `InitRepo` steps, in execution order. -/
def initStepsOk (env : Env) (init : RepoInit) : List Bool :=
  (env.mkdirParentsRes init.Path).isNone ::
    ((env.cloneRes (primaryRemote init).2 init.Path).error).isNone ::
      ((env.renameRes init.Path "origin" (primaryRemote init).1).error).isNone ::
        (init.Remotes.filter fun r => ¬r.1 = (primaryRemote init).1).map
          (fun r => ((env.addRes init.Path r.1 r.2).error).isNone)

/-- How many steps a fail-fast sequence attempts: every leading
successful step plus, if one fails, that first failing step. -/
def attemptedSteps : List Bool → Nat
  | [] => 0
  | b :: rest => if b then attemptedSteps rest + 1 else 1

/-- The error of the first failing `InitRepo` step, if any. -/
def firstInitError (env : Env) (init : RepoInit) : Option String :=
  match env.mkdirParentsRes init.Path with
  | some e => some e
  | none =>
    match (env.cloneRes (primaryRemote init).2 init.Path).error with
    | some e => some e
    | none =>
      match (env.renameRes init.Path "origin" (primaryRemote init).1).error with
      | some e => some e
      | none =>
        ((init.Remotes.filter fun r => ¬r.1 = (primaryRemote init).1).find?
          (fun r => ((env.addRes init.Path r.1 r.2).error).isSome)).bind
          (fun r => (env.addRes init.Path r.1 r.2).error)

theorem addRemainingRemotes_trace (path fr : String) :
    ∀ (l : List (String × String)) (env : Env),
      (addRemainingRemotes env path fr l).2.1 =
        ((l.filter fun r => ¬r.1 = fr).map fun r => Effect.addRemote path r.1 r.2).take
          (attemptedSteps ((l.filter fun r => ¬r.1 = fr).map
            fun r => ((env.addRes path r.1 r.2).error).isNone)) := by
  intro l
  induction l with
  | nil => intro env; rfl
  | cons hd rest ih =>
    intro env
    obtain ⟨name, u⟩ := hd
    by_cases hn : name = fr
    · simp [addRemainingRemotes, hn, List.filter_cons, ih env]
    · cases herr : (env.addRes path name u).error with
      | some e =>
        simp [addRemainingRemotes, hn, List.filter_cons, herr, attemptedSteps]
      | none =>
        simp [addRemainingRemotes, hn, List.filter_cons, herr, attemptedSteps,
          ih (env.setURL path name u)]

theorem addRemainingRemotes_result (path fr : String) :
    ∀ (l : List (String × String)) (env : Env),
      (addRemainingRemotes env path fr l).1 =
        match (l.filter fun r => ¬r.1 = fr).find?
            (fun r => ((env.addRes path r.1 r.2).error).isSome) with
        | some r => Except.error (env.addRes path r.1 r.2)
        | none => Except.ok ((l.filter fun r => ¬r.1 = fr).map
            fun r => "Added remote " ++ r.1) := by
  intro l
  induction l with
  | nil => intro env; rfl
  | cons hd rest ih =>
    intro env
    obtain ⟨name, u⟩ := hd
    by_cases hn : name = fr
    · simp [addRemainingRemotes, hn, List.filter_cons, ih env]
    · cases herr : (env.addRes path name u).error with
      | some e =>
        simp [addRemainingRemotes, hn, List.filter_cons, herr]
      | none =>
        have hres := ih (env.setURL path name u)
        simp only [Env.setURL_addRes] at hres
        simp [addRemainingRemotes, hn, List.filter_cons, List.find?_cons, herr, hres]
        split <;> rfl

@[simp] theorem Env.doClone_addRes (env : Env) (u p : String) :
    (env.doClone u p).addRes = env.addRes := rfl

@[simp] theorem Env.doRename_addRes (env : Env) (p a b : String) :
    (env.doRename p a b).addRes = env.addRes := rfl

theorem InitRepo_trace_take (env : Env) (init : RepoInit) :
    (InitRepo env init).2.1 =
      (fullInitSeq init).take (attemptedSteps (initStepsOk env init)) := by
  unfold InitRepo fullInitSeq initStepsOk
  cases hm : env.mkdirParentsRes init.Path with
  | some e => simp [hm, attemptedSteps]
  | none =>
    cases hc : (env.cloneRes (primaryRemote init).2 init.Path).error with
    | some e => simp [hm, hc, attemptedSteps]
    | none =>
      cases hr : (env.renameRes init.Path "origin" (primaryRemote init).1).error with
      | some e => simp [hm, hc, hr, attemptedSteps]
      | none =>
        have ht := addRemainingRemotes_trace init.Path (primaryRemote init).1
          init.Remotes
          ((env.doClone (primaryRemote init).2 init.Path).doRename init.Path
            "origin" (primaryRemote init).1)
        simp only [Env.doClone_addRes, Env.doRename_addRes] at ht
        simp only [hm, hc, hr]
        split <;> simp [ht, attemptedSteps, List.take_succ_cons]

theorem InitRepo_success_iff (env : Env) (init : RepoInit) :
    (InitRepo env init).1.Success = true ↔
      (env.mkdirParentsRes init.Path = none ∧
       (env.cloneRes (primaryRemote init).2 init.Path).error = none ∧
       (env.renameRes init.Path "origin" (primaryRemote init).1).error = none ∧
       ∀ r ∈ init.Remotes, ¬r.1 = (primaryRemote init).1 →
         (env.addRes init.Path r.1 r.2).error = none) := by
  unfold InitRepo
  cases hm : env.mkdirParentsRes init.Path with
  | some e => simp [hm]
  | none =>
    cases hc : (env.cloneRes (primaryRemote init).2 init.Path).error with
    | some e => simp [hm, hc]
    | none =>
      cases hr : (env.renameRes init.Path "origin" (primaryRemote init).1).error with
      | some e => simp [hm, hc, hr]
      | none =>
        have hres := addRemainingRemotes_result init.Path (primaryRemote init).1
          init.Remotes
          ((env.doClone (primaryRemote init).2 init.Path).doRename init.Path
            "origin" (primaryRemote init).1)
        simp only [Env.doClone_addRes, Env.doRename_addRes] at hres
        simp only [hm, hc, hr]
        rw [hres]
        cases hf : (init.Remotes.filter fun r => ¬r.1 = (primaryRemote init).1).find?
            (fun r => ((env.addRes init.Path r.1 r.2).error).isSome) with
        | some r =>
          have hrmem := List.mem_of_find?_eq_some hf
          have hrpred := List.find?_some hf
          simp only [List.mem_filter, decide_eq_true_eq] at hrmem
          constructor
          · intro h; simp at h
          · intro h
            have := h.2.2.2 r hrmem.1 hrmem.2
            rw [this] at hrpred
            simp at hrpred
        | none =>
          rw [List.find?_eq_none] at hf
          simp only [List.mem_filter, decide_eq_true_eq] at hf
          constructor
          · intro _
            refine ⟨trivial, trivial, trivial, ?_⟩
            intro r hmem hne
            have := hf r ⟨hmem, hne⟩
            simpa using this
          · intro _; simp

theorem InitRepo_error_eq (env : Env) (init : RepoInit) :
    (InitRepo env init).1.Error = firstInitError env init := by
  unfold InitRepo firstInitError
  cases hm : env.mkdirParentsRes init.Path with
  | some e => simp [hm]
  | none =>
    cases hc : (env.cloneRes (primaryRemote init).2 init.Path).error with
    | some e => simp [hm, hc]
    | none =>
      cases hr : (env.renameRes init.Path "origin" (primaryRemote init).1).error with
      | some e => simp [hm, hc, hr]
      | none =>
        have hres := addRemainingRemotes_result init.Path (primaryRemote init).1
          init.Remotes
          ((env.doClone (primaryRemote init).2 init.Path).doRename init.Path
            "origin" (primaryRemote init).1)
        simp only [Env.doClone_addRes, Env.doRename_addRes] at hres
        simp only [hm, hc, hr]
        rw [hres]
        cases hf : (init.Remotes.filter fun r => ¬r.1 = (primaryRemote init).1).find?
            (fun r => ((env.addRes init.Path r.1 r.2).error).isSome) with
        | some r => simp [hf]
        | none => simp [hf]

/-- C9: `InitRepo` performs its steps in order — create parent
directories, clone from the primary remote's URL, rename `origin` to
the primary's canonical name, then add each remaining remote — its
trace is cut off right after the first failing step (so no further
remote additions happen), its `Error` is that first failing step's
error, and `Success` is `true` exactly when every step succeeds. -/
theorem InitRepo_spec (env : Env) (init : RepoInit) :
    (InitRepo env init).2.1 =
        (fullInitSeq init).take (attemptedSteps (initStepsOk env init)) ∧
    ((InitRepo env init).1.Success = true ↔
      (env.mkdirParentsRes init.Path = none ∧
       (env.cloneRes (primaryRemote init).2 init.Path).error = none ∧
       (env.renameRes init.Path "origin" (primaryRemote init).1).error = none ∧
       ∀ r ∈ init.Remotes, ¬r.1 = (primaryRemote init).1 →
         (env.addRes init.Path r.1 r.2).error = none)) ∧
    (InitRepo env init).1.Error = firstInitError env init :=
  ⟨InitRepo_trace_take env init, InitRepo_success_iff env init,
    InitRepo_error_eq env init⟩

theorem fullInitSeq_no_execute (init : RepoInit) :
    ∀ e ∈ fullInitSeq init, e.isExecute = false := by
  intro e he
  simp only [fullInitSeq, List.mem_cons] at he
  rcases he with rfl | rfl | rfl | he
  · rfl
  · rfl
  · rfl
  · simp only [List.mem_map] at he
    obtain ⟨r, _, rfl⟩ := he
    rfl

theorem InitRepo_no_execute (env : Env) (init : RepoInit) :
    ∀ e ∈ (InitRepo env init).2.1, e.isExecute = false := by
  intro e he
  rw [InitRepo_trace_take env init] at he
  exact fullInitSeq_no_execute init e (List.mem_of_mem_take he)

theorem runInits_no_execute (inits : List RepoInit) :
    ∀ env, ∀ e ∈ (runInits env inits).2.1, e.isExecute = false := by
  induction inits with
  | nil => intro env e he; simp [runInits] at he
  | cons i rest ih =>
    intro env e he
    simp only [runInits, List.mem_append] at he
    rcases he with he | he
    · exact InitRepo_no_execute env i e he
    · exact ih _ e he

theorem runInits_length (inits : List RepoInit) :
    ∀ env, (runInits env inits).1.length = inits.length := by
  induction inits with
  | nil => intro env; rfl
  | cons i rest ih => intro env; simp [runInits, ih]

theorem NeedsInitGo_no_execute (env : Env) (tasks : List Task) (l : List Task) :
    ∀ seen, ∀ e ∈ (NeedsInitGo env tasks seen l).2, e.isExecute = false := by
  induction l with
  | nil => intro seen e he; simp [NeedsInitGo] at he
  | cons t rest ih =>
    intro seen e he
    by_cases hseen : t.RepoPath ∈ seen
    · rw [NeedsInitGo, if_pos hseen] at he
      exact ih seen e he
    · rw [NeedsInitGo, if_neg hseen] at he
      by_cases hstat : env.statExists t.RepoPath
      · by_cases hrepo : env.isRepo t.RepoPath
        · simp [hstat, hrepo, List.mem_cons] at he
          rcases he with rfl | rfl | he
          · rfl
          · rfl
          · exact ih _ e he
        · simp [hstat, hrepo, List.mem_cons] at he
          rcases he with rfl | rfl | he
          · rfl
          · rfl
          · exact ih _ e he
      · simp [hstat, List.mem_cons] at he
        rcases he with rfl | he
        · rfl
        · exact ih _ e he

theorem runInit_failure (env : Env) (inits : List RepoInit)
    (hfail : ∃ r ∈ (runInits env inits).1, r.Success = false) :
    runInit env inits =
      (Except.error "repository initialisation failed",
        (runInits env inits).2.1, (runInits env inits).2.2) := by
  obtain ⟨r, hrmem, hrfail⟩ := hfail
  have hallfalse : ((runInits env inits).1.all InitResult.Success) = false := by
    rw [List.all_eq_false]
    exact ⟨r, hrmem, by simp [hrfail]⟩
  unfold runInit
  simp [hallfalse]

theorem RunUI_pull_inits (env : Env) (tasks : List Task) (v f l : Bool)
    (hne : (NeedsInit env tasks).1 ≠ []) :
    RunUI env Operation.Pull tasks v f l =
      match runInit env (NeedsInit env tasks).1 with
      | (Except.error e, t1, env1) =>
        (Except.error e, (NeedsInit env tasks).2 ++ t1, env1)
      | (Except.ok _, t1, env1) =>
        (Except.ok (),
          (NeedsInit env tasks).2 ++ t1 ++ (syncRemotes env1 tasks).2 ++
            schedTrace Operation.Pull (adjustPullTasks tasks) f,
          (syncRemotes env1 tasks).1) := by
  have hemp : ((NeedsInit env tasks).1.isEmpty) = false :=
    List.isEmpty_eq_false.mpr hne
  simp only [RunUI, if_pos rfl, hemp]
  rfl

/-- C4: in a pull run where some repository initialisation fails,
`Run` returns the initialisation error before the scheduler ever
starts: its trace contains no executor invocation at all. -/
theorem pull_init_failure_no_execute (env : Env) (tasks : List Task)
    (v f l : Bool)
    (hfail : ∃ r ∈ (runInits env (NeedsInit env tasks).1).1, r.Success = false) :
    (RunUI env Operation.Pull tasks v f l).1 =
        Except.error "repository initialisation failed" ∧
    ∀ e ∈ (RunUI env Operation.Pull tasks v f l).2.1, e.isExecute = false := by
  have hne : (NeedsInit env tasks).1 ≠ [] := by
    intro h
    obtain ⟨r, hrmem, _⟩ := hfail
    rw [h] at hrmem
    simp [runInits] at hrmem
  rw [RunUI_pull_inits env tasks v f l hne,
    runInit_failure env (NeedsInit env tasks).1 hfail]
  refine ⟨rfl, ?_⟩
  intro e he
  simp only [List.mem_append] at he
  rcases he with he | he
  · exact NeedsInitGo_no_execute env tasks tasks [] e he
  · exact runInits_no_execute (NeedsInit env tasks).1 env e he

/-- Environment for the C3 counterexample and witness, and the C4
witness: the path "p1" does not exist yet (so it needs
initialisation) while "p2" is an existing working copy. -/
def envC3 : Env where
  home := none
  abs := fun _ => none
  statExists := fun p => p != "p1"
  isRepo := fun p => p == "p2"
  url := fun _ _ => ""
  mkdirParentsRes := fun _ => none
  cloneRes := fun _ _ => ⟨"ok", none⟩
  renameRes := fun _ _ _ => ⟨"", none⟩
  addRes := fun _ _ _ => ⟨"", none⟩
  executeRes := fun _ _ _ _ => ⟨"", none⟩

def tasksC3 : List Task :=
  [⟨"r1", "m", "u1", "p1", Operation.Pull⟩, ⟨"r2", "m", "u2", "p2", Operation.Pull⟩]

/-- C3 counterexample: the claim says the reconciler (`syncRemotes`)
completes before the initialiser (`runInit`) starts, which would put
every reconciler call before every initialiser call in the trace.  In
this concrete pull run the clone performed by the initialiser for
"p1" appears strictly before the reconciler's `GetRemoteURL` for
"p2" — the code runs the initialiser first, the spec has the order of
the two barriers reversed. -/
theorem run_reconciler_order_cex :
    Effect.clone "u1" "p1" ∈ (RunUI envC3 Operation.Pull tasksC3 false false false).2.1 ∧
    Effect.getRemoteURL "p2" "m" ∈
      (RunUI envC3 Operation.Pull tasksC3 false false false).2.1 ∧
    (RunUI envC3 Operation.Pull tasksC3 false false false).2.1.indexOf
        (Effect.clone "u1" "p1") <
      (RunUI envC3 Operation.Pull tasksC3 false false false).2.1.indexOf
        (Effect.getRemoteURL "p2" "m") := by
  decide

/-- C3 (amended): in every pull run that needs initialisation, the
initialiser (`runInit`) runs to completion — successfully, else `Run`
aborts — before the reconciler (`syncRemotes`) starts, and the
reconciler completes before the scheduler issues any executor
invocation: the trace decomposes into the detection phase, then the
whole initialiser trace, then the whole reconciler trace, then the
scheduler trace. -/
theorem run_initialiser_before_reconciler (env : Env) (tasks : List Task)
    (v f l : Bool)
    (hne : (NeedsInit env tasks).1 ≠ [])
    (hok : (runInit env (NeedsInit env tasks).1).1 = Except.ok ()) :
    RunUI env Operation.Pull tasks v f l =
      (Except.ok (),
        (NeedsInit env tasks).2 ++ (runInit env (NeedsInit env tasks).1).2.1 ++
          (syncRemotes (runInit env (NeedsInit env tasks).1).2.2 tasks).2 ++
          schedTrace Operation.Pull (adjustPullTasks tasks) f,
        (syncRemotes (runInit env (NeedsInit env tasks).1).2.2 tasks).1) := by
  rw [RunUI_pull_inits env tasks v f l hne]
  rcases hri : runInit env (NeedsInit env tasks).1 with ⟨r1, t1, env1⟩
  rw [hri] at hok
  simp only at hok
  subst hok
  simp [List.append_assoc]

theorem run_initialiser_before_reconciler_witness :
    (NeedsInit envC3 tasksC3).1 ≠ [] ∧
    RunUI envC3 Operation.Pull tasksC3 false false false =
      (Except.ok (),
        (NeedsInit envC3 tasksC3).2 ++
          (runInit envC3 (NeedsInit envC3 tasksC3).1).2.1 ++
          (syncRemotes (runInit envC3 (NeedsInit envC3 tasksC3).1).2.2 tasksC3).2 ++
          schedTrace Operation.Pull (adjustPullTasks tasksC3) false,
        (syncRemotes (runInit envC3 (NeedsInit envC3 tasksC3).1).2.2 tasksC3).1) :=
  ⟨by decide,
    run_initialiser_before_reconciler envC3 tasksC3 false false false (by decide) rfl⟩

/-- Environment for the C4 witness: like `envC3` but every clone
fails, so initialising "p1" fails. -/
def envC4 : Env :=
  { envC3 with cloneRes := fun _ _ => ⟨"fatal: repository not found", some "exit status 128"⟩ }

theorem pull_init_failure_no_execute_witness :
    (∃ r ∈ (runInits envC4 (NeedsInit envC4 tasksC3).1).1, r.Success = false) ∧
    (RunUI envC4 Operation.Pull tasksC3 false false false).1 =
        Except.error "repository initialisation failed" ∧
    ∀ e ∈ (RunUI envC4 Operation.Pull tasksC3 false false false).2.1,
      e.isExecute = false :=
  ⟨by decide,
    pull_init_failure_no_execute envC4 tasksC3 false false false (by decide)⟩

/-- `remote.All`: the wildcard selector. -/
def All : String := "all"

/-- `config.RemoteDefinition`. -/
structure RemoteDefinition where
  Aliases : List String
  URL : String
  deriving DecidableEq, Repr

/-- `config.OperationDefaults`. -/
structure OperationDefaults where
  Remotes : List String
  deriving DecidableEq, Repr

/-- `config.Defaults`. -/
structure Defaults where
  Remotes : List String
  PathPrefix : String
  Verbose : Bool
  Linear : Bool
  Pull : OperationDefaults
  Push : OperationDefaults
  Fetch : OperationDefaults
  deriving DecidableEq, Repr

/-- `config.Repo`.  `Remotes` embeds the `RepoRemotes` Go map as an
association list (list order = map iteration order). -/
structure Repo where
  Path : String
  Remotes : List (String × String)
  deriving DecidableEq, Repr

/-- The Go zero value `config.Repo{}`, produced by indexing
`cfg.Repos` with an absent key. -/
instance : Inhabited Repo := ⟨⟨"", []⟩⟩

/-- `config.Config`. -/
structure Config where
  Remotes : List (String × RemoteDefinition)
  Defaults : Defaults
  Repos : List (String × Repo)
  deriving DecidableEq, Repr

/-- Go map read (`v, ok := m[k]`), `none` when absent. -/
def lookupAssoc {α : Type} : List (String × α) → String → Option α
  | [], _ => none
  | (k', v) :: rest, k => if k' = k then some v else lookupAssoc rest k

/-- `Config.AllRepos`: the tracked repository names (the Go map's
keys, in iteration order). -/
def Config.AllRepos (c : Config) : List String := c.Repos.map Prod.fst

/-- `Config.ResolveAlias`: first remote definition whose name or alias
list matches, else the input unchanged. -/
def Config.ResolveAlias (c : Config) (aliasName : String) : String :=
  match c.Remotes.find? (fun nd => nd.1 == aliasName || nd.2.Aliases.contains aliasName) with
  | some nd => nd.1
  | none => aliasName

/-- `filepath.Base` (Unix rules): strip trailing slashes, then keep
everything after the last slash; `""` gives `"."` and an all-slash
path gives `"/"`. -/
def baseName (p : String) : String :=
  if p = "" then "."
  else
    let cs := (p.data.reverse.dropWhile (fun c => c = '/')).reverse
    if cs = [] then "/"
    else String.mk ((cs.reverse.takeWhile (fun c => c != '/')).reverse)

/-- Slash-splitting over the character list (the `String` splitting
primitives do not reduce in the kernel, so the embedding works on
`List Char`). -/
def splitSlash : List Char → List (List Char)
  | [] => [[]]
  | c :: rest =>
    let r := splitSlash rest
    if c = '/' then [] :: r
    else
      match r with
      | s :: ss => (c :: s) :: ss
      | [] => [[c]]

/-- The stack pass of `path.Clean`: walks the segments left to right
with the processed segments on a reversed stack, dropping empty and
`"."` segments and resolving `".."` — popping a preceding segment,
keeping `".."` at the head of a relative path, and discarding it at
the root of a rooted one. -/
def cleanRev (rooted : Bool) (acc : List (List Char)) :
    List (List Char) → List (List Char)
  | [] => acc
  | seg :: rest =>
    if seg = [] ∨ seg = ['.'] then cleanRev rooted acc rest
    else if seg = ['.', '.'] then
      match acc with
      | [] =>
        if rooted then cleanRev rooted [] rest
        else cleanRev rooted [['.', '.']] rest
      | top :: accRest =>
        if top = ['.', '.'] then cleanRev rooted (seg :: acc) rest
        else cleanRev rooted accRest rest
    else cleanRev rooted (seg :: acc) rest

/-- Reassembles cleaned segments with single separators. -/
def joinSegs : List (List Char) → List Char
  | [] => []
  | [s] => s
  | s :: rest => s ++ '/' :: joinSegs rest

/-- `filepath.Clean` (Go, Unix rules): collapse repeated separators,
drop `.` segments, resolve `..`, with `"."` for an emptied relative
path and `"/"` for an emptied rooted one. -/
def filepathClean (p : String) : String :=
  match p.data with
  | [] => "."
  | c :: _ =>
    let rooted := c = '/'
    let segs := (cleanRev rooted [] (splitSlash p.data)).reverse
    if rooted then String.mk ('/' :: joinSegs segs)
    else if segs = [] then "."
    else String.mk (joinSegs segs)

/-- `filepath.Join` of two elements (Go): empty elements are dropped,
the rest are joined with `"/"`, and the result is `Clean`ed; an
all-empty argument list yields `""`. -/
def joinPath (a b : String) : String :=
  if a = "" ∧ b = "" then ""
  else if a = "" then filepathClean b
  else if b = "" then filepathClean a
  else filepathClean (a ++ "/" ++ b)

/-- `config.Repo.ExpandPath`: expands a leading `~` (Go checks
`path[0] == \'~\'` and joins the home directory with `path[1:]`),
leaving the path unchanged when the home directory is unavailable. -/
def Repo.ExpandPath (env : Env) (r : Repo) : String :=
  match r.Path.data with
  | '~' :: restChars =>
    (match env.home with
     | some h => joinPath h (String.mk restChars)
     | none => r.Path)
  | _ => r.Path

/-- `config.Config.FindRepoByPath`: compares absolute paths via the
`abs` oracle (`filepath.Abs`), scanning the repository map; entries
whose path fails to resolve are skipped. -/
def Config.FindRepoByPath (env : Env) (c : Config) (path : String) :
    Option (String × Repo) :=
  match env.abs path with
  | none => none
  | some absPath =>
    c.Repos.find? (fun nr =>
      match env.abs (nr.2.ExpandPath env) with
      | some rp => rp == absPath
      | none => false)

/-- `config.Config.FindRepo`: `"."` resolves by path; otherwise exact
tracked name, then a unique base-name match. -/
def Config.FindRepo (env : Env) (c : Config) (name : String) :
    Option (String × Repo) :=
  if name = "." then c.FindRepoByPath env "."
  else
    match lookupAssoc c.Repos name with
    | some repo => some (name, repo)
    | none =>
      match c.Repos.filter (fun nr => baseName nr.1 == name) with
      | [m] => some m
      | _ => none

/-- `config.Defaults.RemotesFor`: per-operation default remote set,
falling back to the global default. -/
def Defaults.RemotesFor (d : Defaults) (operation : String) : List String :=
  if operation = "pull" && d.Pull.Remotes.length > 0 then d.Pull.Remotes
  else if operation = "push" && d.Push.Remotes.length > 0 then d.Push.Remotes
  else if operation = "fetch" && d.Fetch.Remotes.length > 0 then d.Fetch.Remotes
  else d.Remotes

/-- `ui.resolveRepos`: wildcard selects every tracked repository,
otherwise the unique `FindRepo` match, otherwise nothing. -/
def resolveRepos (env : Env) (cfg : Config) (name : String) : List String :=
  if name = All then cfg.AllRepos
  else
    match cfg.FindRepo env name with
    | some nr => [nr.1]
    | none => []

/-- `ui.resolveRemotes`: the wildcard list selects every remote the
repository has configured; otherwise each requested name is resolved
through the alias table. -/
def resolveRemotes (cfg : Config) (repo : Repo) (names : List String) : List String :=
  if names = [All] then repo.Remotes.map Prod.fst
  else names.map cfg.ResolveAlias

/-- Inner loop of `ui.BuildTasks` for one resolved repository: one
task per resolved remote that actually has a configured URL
(`if url, ok := repo.Remotes[remoteName]; ok`). -/
def tasksForRepo (env : Env) (cfg : Config) (remoteNames : List String)
    (fullName : String) : List Task :=
  let repo := (lookupAssoc cfg.Repos fullName).getD default
  (resolveRemotes cfg repo remoteNames).filterMap (fun remoteName =>
    (lookupAssoc repo.Remotes remoteName).map (fun url =>
      { RepoName := fullName, RemoteName := remoteName, RemoteURL := url,
        RepoPath := repo.ExpandPath env, Op := Operation.Pull }))

/-- `ui.BuildTasks`: one task per resolved repository x resolved
remote that actually has a configured URL.  `Op` is left at its Go
zero value, which is `Pull`. -/
def BuildTasks (env : Env) (cfg : Config) (repoName : String)
    (remoteNames : List String) : List Task :=
  (resolveRepos env cfg repoName).flatMap (tasksForRepo env cfg remoteNames)

theorem tasksForRepo_path (env : Env) (cfg : Config) (rns : List String)
    (n : String) :
    ∀ t ∈ tasksForRepo env cfg rns n,
      t.RepoPath = ((lookupAssoc cfg.Repos n).getD default).ExpandPath env := by
  intro t ht
  simp only [tasksForRepo, List.mem_filterMap] at ht
  obtain ⟨rn, _, heq⟩ := ht
  cases hl : lookupAssoc ((lookupAssoc cfg.Repos n).getD default).Remotes rn with
  | none => simp [hl] at heq
  | some url =>
    simp only [hl, Option.map_some'] at heq
    injection heq with heq
    rw [← heq]

theorem filterMapTasks_names_sublist (env : Env) (fullName : String) (repo : Repo) :
    ∀ rems : List String,
      List.Sublist
        ((rems.filterMap (fun remoteName =>
          (lookupAssoc repo.Remotes remoteName).map (fun url =>
            ({ RepoName := fullName, RemoteName := remoteName, RemoteURL := url,
               RepoPath := repo.ExpandPath env, Op := Operation.Pull } : Task)))).map
          Task.RemoteName)
        rems := by
  intro rems
  induction rems with
  | nil => simp
  | cons rn rest ih =>
    cases hl : lookupAssoc repo.Remotes rn with
    | none =>
      simp only [List.filterMap_cons, hl, Option.map_none']
      exact ih.cons rn
    | some url =>
      simp only [List.filterMap_cons, hl, Option.map_some', List.map_cons]
      exact ih.cons₂ rn

theorem tasksForRepo_names_sublist (env : Env) (cfg : Config) (rns : List String)
    (n : String) :
    List.Sublist ((tasksForRepo env cfg rns n).map Task.RemoteName)
      (resolveRemotes cfg ((lookupAssoc cfg.Repos n).getD default) rns) :=
  filterMapTasks_names_sublist env n ((lookupAssoc cfg.Repos n).getD default)
    (resolveRemotes cfg ((lookupAssoc cfg.Repos n).getD default) rns)

theorem tasksForRepo_keys_nodup (env : Env) (cfg : Config) (rns : List String)
    (n : String)
    (h : (resolveRemotes cfg ((lookupAssoc cfg.Repos n).getD default) rns).Nodup) :
    ((tasksForRepo env cfg rns n).map
      (fun t => (t.RepoPath, t.RemoteName))).Nodup := by
  have hnames : ((tasksForRepo env cfg rns n).map Task.RemoteName).Nodup :=
    List.Sublist.nodup (tasksForRepo_names_sublist env cfg rns n) h
  have hkeys : (tasksForRepo env cfg rns n).map (fun t => (t.RepoPath, t.RemoteName)) =
      ((tasksForRepo env cfg rns n).map Task.RemoteName).map
        (fun name => (((lookupAssoc cfg.Repos n).getD default).ExpandPath env, name)) := by
    rw [List.map_map]
    refine List.map_congr_left ?_
    intro t ht
    simp [tasksForRepo_path env cfg rns n t ht]
  rw [hkeys]
  refine hnames.map ?_
  intro a b hab
  simpa using hab

theorem flatMap_keys_nodup (env : Env) (cfg : Config) (rns : List String) :
    ∀ (names : List String),
      (names.map (fun n =>
        ((lookupAssoc cfg.Repos n).getD default).ExpandPath env)).Nodup →
      (∀ n ∈ names,
        (resolveRemotes cfg ((lookupAssoc cfg.Repos n).getD default) rns).Nodup) →
      ((names.flatMap (tasksForRepo env cfg rns)).map
        (fun t => (t.RepoPath, t.RemoteName))).Nodup := by
  intro names
  induction names with
  | nil => intro _ _; simp
  | cons n rest ih =>
    intro hpaths hrems
    simp only [List.map_cons, List.nodup_cons] at hpaths
    simp only [List.flatMap_cons, List.map_append]
    rw [List.nodup_append]
    refine ⟨tasksForRepo_keys_nodup env cfg rns n (hrems n (List.mem_cons_self n rest)),
      ih hpaths.2 (fun m hm => hrems m (List.mem_cons_of_mem n hm)), ?_⟩
    intro k hk1 hk2
    simp only [List.mem_map] at hk1 hk2
    obtain ⟨t1, ht1, rfl⟩ := hk1
    obtain ⟨t2, ht2, hk⟩ := hk2
    simp only [List.mem_flatMap] at ht2
    obtain ⟨m, hm, ht2⟩ := ht2
    have hp1 := tasksForRepo_path env cfg rns n t1 ht1
    have hp2 := tasksForRepo_path env cfg rns m t2 ht2
    have : t1.RepoPath = t2.RepoPath := by
      have := congrArg Prod.fst hk
      simpa using this.symm
    apply hpaths.1
    rw [List.mem_map]
    exact ⟨m, hm, by rw [← hp2, ← this, hp1]⟩

/-- C2 (amended): the (path, remote-name) identity keys of the tasks
built by `BuildTasks` are pairwise distinct provided that (a) the
resolved repositories have pairwise distinct expanded local paths and
(b) for each resolved repository the resolved remote-name list is
duplicate-free (both hold in the common case of the `"all"` wildcard
selectors over a well-formed configuration).  Without these provisos
distinctness fails, see the counterexample: a command line naming the
same remote twice yields two tasks with equal keys. -/
theorem BuildTasks_keys_distinct (env : Env) (cfg : Config) (repoName : String)
    (remoteNames : List String)
    (hpaths : ((resolveRepos env cfg repoName).map (fun n =>
      ((lookupAssoc cfg.Repos n).getD default).ExpandPath env)).Nodup)
    (hrems : ∀ n ∈ resolveRepos env cfg repoName,
      (resolveRemotes cfg ((lookupAssoc cfg.Repos n).getD default) remoteNames).Nodup) :
    ((BuildTasks env cfg repoName remoteNames).map
      (fun t => (t.RepoPath, t.RemoteName))).Nodup :=
  flatMap_keys_nodup env cfg remoteNames (resolveRepos env cfg repoName) hpaths hrems

/-- Configuration with a single repository "r" at path "p" having one
remote "github". -/
def cfgC2 : Config :=
  ⟨[], ⟨[], "", false, false, ⟨[]⟩, ⟨[]⟩, ⟨[]⟩⟩,
    [("r", ⟨"p", [("github", "u")]⟩)]⟩

/-- C2 counterexample: selecting the same remote twice on the command
line (`mugi push r github github`) makes `BuildTasks` return two
tasks with the identical (path, remote-name) key, so key uniqueness
does not hold for every remote selector list. -/
theorem BuildTasks_keys_distinct_cex :
    ¬ ((BuildTasks envC3 cfgC2 "r" ["github", "github"]).map
        (fun t => (t.RepoPath, t.RemoteName))).Nodup := by decide

theorem BuildTasks_keys_distinct_witness :
    ((resolveRepos envC3 cfgC2 "r").map (fun n =>
      ((lookupAssoc cfgC2.Repos n).getD default).ExpandPath envC3)).Nodup ∧
    ((BuildTasks envC3 cfgC2 "r" [All]).map
      (fun t => (t.RepoPath, t.RemoteName))).Nodup :=
  ⟨by decide, BuildTasks_keys_distinct envC3 cfgC2 "r" [All] (by decide) (by decide)⟩

/-- `remote.Operation.String` (the Go `default` branch is unreachable
for the three declared constructors). -/
def Operation.opString : Operation → String
  | Operation.Pull => "pull"
  | Operation.Push => "push"
  | Operation.Fetch => "fetch"

/-- `cli.CommandType`. -/
inductive CommandType where
  | CommandOperation
  | CommandAdd
  | CommandRemove
  | CommandList
  deriving DecidableEq, Repr

/-- `cli.Command`, the result of `cli.Parse` (the field `Type` is
renamed `type` because `Type` is reserved in Lean).  Parsing itself is
outside the claims, so the embedded `run` takes the command
directly. -/
structure Command where
  type : CommandType
  Operation : Operation
  Repo : String
  Remotes : List String
  Path : String
  ConfigPath : String
  Verbose : Bool
  Force : Bool
  Linear : Bool
  Help : Bool
  Version : Bool
  deriving DecidableEq, Repr

/-- Outcomes of the repository-management commands (`manage.Add`,
`manage.Remove`, `manage.List`), collaborators with their own IO
outside the scope of the claims. -/
structure ManageEnv where
  add : String → Except String Unit × List Effect
  remove : String → Except String Unit × List Effect
  list : Except String (List (String × String)) × List Effect

/-- `main.applyDefaults` (cmd/mugi): configuration defaults for
verbose and linear, plus the per-operation default remote set when
the remote selector is still the single wildcard. -/
def applyDefaults (cmd : Command) (cfg : Config) : Command :=
  let cmd1 := if cfg.Defaults.Verbose then { cmd with Verbose := true } else cmd
  let cmd2 := if cfg.Defaults.Linear then { cmd1 with Linear := true } else cmd1
  if cmd2.Remotes = [All] then
    let opRemotes := cfg.Defaults.RemotesFor cmd2.Operation.opString
    if opRemotes.length > 0 then { cmd2 with Remotes := opRemotes } else cmd2
  else cmd2

/-- `main.run` (cmd/mugi) from the point where `cli.Parse` has
succeeded: help/version print and exit cleanly; add/remove/list
dispatch to the management collaborator; an operation command loads
the configuration (outcome `cfgRes`), applies defaults, builds the
task list, fails when it is empty, and otherwise hands over to
`ui.Run`.  Resolving the config path reads only environment
variables, so it performs no recorded effect. -/
def runMain (env : Env) (menv : ManageEnv) (cmd : Command)
    (cfgRes : Except String Config) : Except String Unit × List Effect :=
  if cmd.Help then (Except.ok (), [])
  else if cmd.Version then (Except.ok (), [])
  else
    match cmd.type with
    | CommandType.CommandAdd =>
      match cfgRes with
      | Except.error e => (Except.error ("config: " ++ e), [])
      | Except.ok _ => menv.add cmd.Path
    | CommandType.CommandRemove => menv.remove cmd.Repo
    | CommandType.CommandList =>
      match menv.list with
      | (Except.error e, tr) => (Except.error e, tr)
      | (Except.ok _, tr) => (Except.ok (), tr)
    | CommandType.CommandOperation =>
      match cfgRes with
      | Except.error e => (Except.error ("config: " ++ e), [])
      | Except.ok cfg =>
        let cmd3 := applyDefaults cmd cfg
        let tasks := BuildTasks env cfg cmd3.Repo cmd3.Remotes
        if tasks.isEmpty then
          (Except.error "no matching repositories or remotes found", [])
        else
          let r := RunUI env cmd3.Operation tasks cmd3.Verbose cmd3.Force cmd3.Linear
          (r.1, r.2.1)

/-- `main.main`: prints the error and exits 1 when `run` fails, exits
0 otherwise. -/
def mainExit (env : Env) (menv : ManageEnv) (cmd : Command)
    (cfgRes : Except String Config) : Nat :=
  match (runMain env menv cmd cfgRes).1 with
  | Except.error _ => 1
  | Except.ok _ => 0

/-- C8: for every invocation whose resolved task list is empty, `run`
returns exactly the error "no matching repositories or remotes
found", the process exits with status 1, and no external call of any
kind — executor, clone or remote management — is made (the effect
trace is empty). -/
theorem empty_tasks_error (env : Env) (menv : ManageEnv) (cmd : Command)
    (cfg : Config)
    (hhelp : cmd.Help = false) (hver : cmd.Version = false)
    (htype : cmd.type = CommandType.CommandOperation)
    (hempty : BuildTasks env cfg (applyDefaults cmd cfg).Repo
      (applyDefaults cmd cfg).Remotes = []) :
    runMain env menv cmd (Except.ok cfg) =
      (Except.error "no matching repositories or remotes found", []) ∧
    mainExit env menv cmd (Except.ok cfg) = 1 := by
  have h1 : runMain env menv cmd (Except.ok cfg) =
      (Except.error "no matching repositories or remotes found", []) := by
    unfold runMain
    rw [hhelp, hver, htype]
    simp [hempty]
  exact ⟨h1, by unfold mainExit; rw [h1]⟩

/-- Concrete inputs for the C8 witness: a configuration tracking no
repositories and a plain `mugi pull`. -/
def cmdC8 : Command :=
  ⟨CommandType.CommandOperation, Operation.Pull, "all", ["all"], "", "",
    false, false, false, false, false⟩

def cfgC8 : Config := ⟨[], ⟨[], "", false, false, ⟨[]⟩, ⟨[]⟩, ⟨[]⟩⟩, []⟩

def menvC8 : ManageEnv :=
  ⟨fun _ => (Except.ok (), []), fun _ => (Except.ok (), []), (Except.ok [], [])⟩

theorem empty_tasks_error_witness :
    BuildTasks envC3 cfgC8 (applyDefaults cmdC8 cfgC8).Repo
      (applyDefaults cmdC8 cfgC8).Remotes = [] ∧
    runMain envC3 menvC8 cmdC8 (Except.ok cfgC8) =
      (Except.error "no matching repositories or remotes found", []) ∧
    mainExit envC3 menvC8 cmdC8 (Except.ok cfgC8) = 1 :=
  ⟨by decide,
    (empty_tasks_error envC3 menvC8 cmdC8 cfgC8 rfl rfl rfl (by decide)).1,
    (empty_tasks_error envC3 menvC8 cmdC8 cfgC8 rfl rfl rfl (by decide)).2⟩

/-- `ui.taskKey`: the state-map key of a task. -/
def taskKey (t : Task) : String := t.RepoName ++ ":" ++ t.RemoteName

/-- `ui.taskState` (`taskPending` is the Go zero value, which a map
read of an absent key yields). -/
inductive TaskState where
  | Pending
  | Running
  | Success
  | Failed
  deriving DecidableEq, Repr

def TaskState.isTerminal : TaskState → Bool
  | TaskState.Success => true
  | TaskState.Failed => true
  | _ => false

/-- A `ui.taskResult` completion message: the finished task and its
`git.Result`. -/
structure TaskResultMsg where
  task : Task
  result : ExecResult
  deriving DecidableEq, Repr

/-- `ui.Model`, restricted to the fields the scheduling logic reads
(the spinner and other presentation state is omitted). -/
structure Model where
  tasks : List Task
  states : List (String × TaskState)
  results : List (String × ExecResult)
  operation : Operation
  verbose : Bool
  force : Bool
  linear : Bool
  currentTask : Nat
  done : Bool
  deriving DecidableEq, Repr

/-- `ui.NewModel`: every task's key starts `Pending` (duplicate keys
collapse into one map entry, exactly as in Go). -/
def NewModel (op : Operation) (tasks : List Task)
    (verbose force linear : Bool) : Model :=
  { tasks := tasks
    states := tasks.foldl (fun s t => setAssoc s (taskKey t) TaskState.Pending) []
    results := []
    operation := op
    verbose := verbose
    force := force
    linear := linear
    currentTask := 0
    done := false }

/-- The model commands that matter for scheduling: fire one task's
invocation, or quit (`spinner.Tick` is presentation only). -/
inductive Cmd where
  | runTask (t : Task)
  | quit
  deriving DecidableEq, Repr

/-- `Model.allDone`: no map entry is pending or running. -/
def allDone (states : List (String × TaskState)) : Bool :=
  states.all (fun p => p.2 != TaskState.Pending && p.2 != TaskState.Running)

/-- `Model.Init`: linear mode fires only the first task, parallel
mode fires every task at once. -/
def initCmds (m : Model) : List Cmd :=
  if m.linear then
    match m.tasks with
    | [] => []
    | t :: _ => [Cmd.runTask t]
  else m.tasks.map Cmd.runTask

/-- The `taskResult` branch of `Model.Update`: record the terminal
state and result for the task's key, advance `currentTask`, quit when
every map entry is terminal, and otherwise in linear mode fire
`m.tasks[m.currentTask]` (read after the increment) when in range. -/
def updateResult (m : Model) (msg : TaskResultMsg) : Model × List Cmd :=
  let key := taskKey msg.task
  let states := setAssoc m.states key
    (if msg.result.error.isSome then TaskState.Failed else TaskState.Success)
  let m1 := { m with states := states,
                     results := setAssoc m.results key msg.result,
                     currentTask := m.currentTask + 1 }
  if allDone m1.states then ({ m1 with done := true }, [Cmd.quit])
  else if m1.linear && m1.currentTask < m1.tasks.length then
    (m1, [Cmd.runTask (m1.tasks.getD m1.currentTask default)])
  else (m1, [])

/-- Folding a sequence of completion events through `Model.Update`.
In a run, each fired task delivers exactly one such event. -/
def processEvents (m : Model) (msgs : List TaskResultMsg) : Model :=
  msgs.foldl (fun m e => (updateResult m e).1) m

/-- The state recorded for a key; an absent key reads as the Go zero
value `taskPending`. -/
def stateOf (m : Model) (k : String) : TaskState :=
  (lookupAssoc m.states k).getD TaskState.Pending

theorem lookupAssoc_setAssoc_self {α : Type} (l : List (String × α))
    (k : String) (v : α) : lookupAssoc (setAssoc l k v) k = some v := by
  induction l with
  | nil => simp [setAssoc, lookupAssoc]
  | cons p rest ih =>
    obtain ⟨k', v'⟩ := p
    by_cases h : k' = k
    · simp [setAssoc, lookupAssoc, h]
    · simp [setAssoc, lookupAssoc, h, ih]

theorem lookupAssoc_setAssoc_ne {α : Type} (l : List (String × α))
    (k k' : String) (v : α) (h : k' ≠ k) :
    lookupAssoc (setAssoc l k v) k' = lookupAssoc l k' := by
  induction l with
  | nil => simp [setAssoc, lookupAssoc, Ne.symm h]
  | cons p rest ih =>
    obtain ⟨k0, v0⟩ := p
    by_cases h0 : k0 = k
    · subst h0
      simp [setAssoc, lookupAssoc, Ne.symm h]
    · simp [setAssoc, lookupAssoc, h0, ih]

theorem updateResult_states (m : Model) (e : TaskResultMsg) :
    ((updateResult m e).1).states =
      setAssoc m.states (taskKey e.task)
        (if e.result.error.isSome then TaskState.Failed else TaskState.Success) := by
  simp only [updateResult]
  split_ifs <;> simp [apply_ite]

theorem updateResult_tasks (m : Model) (e : TaskResultMsg) :
    ((updateResult m e).1).tasks = m.tasks := by
  simp only [updateResult]
  split_ifs <;> simp [apply_ite]

theorem updateResult_linear (m : Model) (e : TaskResultMsg) :
    ((updateResult m e).1).linear = m.linear := by
  simp only [updateResult]
  split_ifs <;> simp [apply_ite]

theorem updateResult_currentTask (m : Model) (e : TaskResultMsg) :
    ((updateResult m e).1).currentTask = m.currentTask + 1 := by
  simp only [updateResult]
  split_ifs <;> simp [apply_ite]

theorem stateOf_update_ne (m : Model) (e : TaskResultMsg) (k : String)
    (h : k ≠ taskKey e.task) :
    stateOf ((updateResult m e).1) k = stateOf m k := by
  unfold stateOf
  rw [updateResult_states, lookupAssoc_setAssoc_ne _ _ _ _ h]

theorem stateOf_processEvents_ne (msgs : List TaskResultMsg) :
    ∀ (m : Model) (k : String), k ∉ msgs.map (fun e => taskKey e.task) →
      stateOf (processEvents m msgs) k = stateOf m k := by
  induction msgs with
  | nil => intro m k _; rfl
  | cons e rest ih =>
    intro m k hk
    simp only [List.map_cons, List.mem_cons] at hk
    push_neg at hk
    calc stateOf (processEvents ((updateResult m e).1) rest) k
        = stateOf ((updateResult m e).1) k := ih _ k hk.2
      _ = stateOf m k := stateOf_update_ne m e k hk.1

theorem lookup_foldl_pending (tasks : List Task) :
    ∀ (acc : List (String × TaskState)) (k : String),
      (∀ v, lookupAssoc acc k = some v → v = TaskState.Pending) →
      ∀ v, lookupAssoc
        (tasks.foldl (fun s t => setAssoc s (taskKey t) TaskState.Pending) acc) k
          = some v → v = TaskState.Pending := by
  induction tasks with
  | nil => intro acc k hacc; exact hacc
  | cons t rest ih =>
    intro acc k hacc
    refine ih _ k ?_
    intro v hv
    by_cases hk : k = taskKey t
    · subst hk
      rw [lookupAssoc_setAssoc_self] at hv
      injection hv with hv
      exact hv.symm
    · rw [lookupAssoc_setAssoc_ne _ _ _ _ hk] at hv
      exact hacc v hv

theorem stateOf_NewModel (op : Operation) (tasks : List Task)
    (v f lin : Bool) (k : String) :
    stateOf (NewModel op tasks v f lin) k = TaskState.Pending := by
  unfold stateOf NewModel
  cases hl : lookupAssoc
      (tasks.foldl (fun s t => setAssoc s (taskKey t) TaskState.Pending) []) k with
  | none => rfl
  | some v =>
    have := lookup_foldl_pending tasks [] k (by intro v hv; simp [lookupAssoc] at hv) v hl
    simp [this]

theorem terminal_mem_keys (op : Operation) (tasks : List Task) (v f lin : Bool)
    (msgs : List TaskResultMsg) (k : String)
    (hterm : (stateOf (processEvents (NewModel op tasks v f lin) msgs) k).isTerminal
      = true) :
    k ∈ msgs.map (fun e => taskKey e.task) := by
  by_contra hk
  rw [stateOf_processEvents_ne msgs _ k hk, stateOf_NewModel] at hterm
  simp [TaskState.isTerminal] at hterm

/-- C6 (amended): provided the run's task keys are pairwise distinct
— so that each key receives at most one completion event, since every
fired task completes exactly once — a key whose recorded state is
terminal after some prefix of the run's completion events keeps
exactly that state through the remaining events: it never reverts to
Pending or Running and never switches to the other terminal state.
The events are only required to be completions of distinct fired
tasks (`Subperm`), in any arrival order, as in a parallel run.  With
duplicate keys the code can overwrite one terminal state with the
other, see the counterexample. -/
theorem terminal_state_monotone (op : Operation) (tasks : List Task)
    (v f lin : Bool) (pre suf : List TaskResultMsg) (k : String)
    (hkeys : (tasks.map taskKey).Nodup)
    (hsub : List.Subperm ((pre ++ suf).map (fun e => e.task)) tasks)
    (hterm : (stateOf (processEvents (NewModel op tasks v f lin) pre) k).isTerminal
      = true) :
    stateOf (processEvents (NewModel op tasks v f lin) (pre ++ suf)) k =
      stateOf (processEvents (NewModel op tasks v f lin) pre) k := by
  have hnodup : ((pre ++ suf).map (fun e => taskKey e.task)).Nodup := by
    have h1 : (pre ++ suf).map (fun e => taskKey e.task) =
        (((pre ++ suf).map (fun e => e.task)).map taskKey) := by
      rw [List.map_map]; rfl
    rw [h1]
    obtain ⟨l, hperm, hsl⟩ := hsub
    exact ((hperm.map taskKey).nodup
      (List.Sublist.nodup (hsl.map taskKey) hkeys))
  have hmem : k ∈ pre.map (fun e => taskKey e.task) :=
    terminal_mem_keys op tasks v f lin pre k hterm
  have hnotsuf : k ∉ suf.map (fun e => taskKey e.task) := by
    rw [List.map_append] at hnodup
    exact (List.disjoint_of_nodup_append hnodup) hmem
  have happ : processEvents (NewModel op tasks v f lin) (pre ++ suf) =
      processEvents (processEvents (NewModel op tasks v f lin) pre) suf := by
    unfold processEvents
    rw [List.foldl_append]
  rw [happ]
  exact stateOf_processEvents_ne suf _ k hnotsuf

/-- Two tasks sharing the key "r:m" (same repository and remote name,
different URLs/paths — e.g. built from a selector naming the same
remote twice). -/
def tasksC6 : List Task :=
  [⟨"r", "m", "u1", "p1", Operation.Pull⟩, ⟨"r", "m", "u2", "p2", Operation.Pull⟩]

/-- C6 counterexample: in a parallel run of `tasksC6` both tasks are
fired at start and each delivers one completion event.  After the
first event the key "r:m" is terminal (`Success`); processing the
second task's failure event overwrites it with the other terminal
state `Failed` — so without distinct keys a terminal state does not
persist. -/
theorem terminal_state_monotone_cex :
    stateOf (processEvents (NewModel Operation.Push tasksC6 false false false)
      [⟨tasksC6.getD 0 default, ⟨"", none⟩⟩]) "r:m" = TaskState.Success ∧
    stateOf (processEvents (NewModel Operation.Push tasksC6 false false false)
      [⟨tasksC6.getD 0 default, ⟨"", none⟩⟩,
       ⟨tasksC6.getD 1 default, ⟨"", some "err"⟩⟩]) "r:m" = TaskState.Failed := by
  decide

theorem terminal_state_monotone_witness :
    ((tasksC3.map taskKey).Nodup ∧
      (stateOf (processEvents (NewModel Operation.Push tasksC3 false false false)
        [⟨tasksC3.getD 0 default, ⟨"", none⟩⟩]) "r1:m").isTerminal = true) ∧
    stateOf (processEvents (NewModel Operation.Push tasksC3 false false false)
        ([⟨tasksC3.getD 0 default, ⟨"", none⟩⟩] ++
          [⟨tasksC3.getD 1 default, ⟨"", some "err"⟩⟩])) "r1:m" =
      stateOf (processEvents (NewModel Operation.Push tasksC3 false false false)
        [⟨tasksC3.getD 0 default, ⟨"", none⟩⟩]) "r1:m" :=
  ⟨⟨by decide, by decide⟩,
    terminal_state_monotone Operation.Push tasksC3 false false false
      [⟨tasksC3.getD 0 default, ⟨"", none⟩⟩]
      [⟨tasksC3.getD 1 default, ⟨"", some "err"⟩⟩] "r1:m"
      (by decide) (List.Sublist.subperm (by decide)) (by decide)⟩

/-- Scheduling events of a run: issuing one task's invocation
(`runTask` command fired), and processing its completion message. -/
inductive SchedEv where
  | issue (t : Task)
  | complete (t : Task)
  deriving DecidableEq, Repr

/-- The linear-mode event loop: `out` is the single outstanding task
(the one `runTask` command in flight).  Its completion arrives —
`res i` being the executor outcome of the i-th completion, and
`m.currentTask` counting completions processed so far — is fed to
`Model.Update`, and the loop continues with whatever single command
the update returned.  `fuel` bounds the recursion; `tasks.length` is
always enough because every completion advances `currentTask`.
Key and spinner messages are omitted: they fire no task. -/
def linearLoop (res : Nat → ExecResult) : Model → Task → Nat → List SchedEv
  | _, _, 0 => []
  | m, out, fuel + 1 =>
    let step := updateResult m ⟨out, res m.currentTask⟩
    SchedEv.complete out ::
      match step.2 with
      | [Cmd.runTask u] => SchedEv.issue u :: linearLoop res step.1 u fuel
      | _ => []

/-- A full linear-mode run: `Model.Init` issues the first task's
invocation, then the loop processes completions until the model stops
issuing (quit or nothing left). -/
def linearRun (op : Operation) (tasks : List Task) (v f : Bool)
    (res : Nat → ExecResult) : List SchedEv :=
  let m := NewModel op tasks v f true
  match initCmds m with
  | [Cmd.runTask t] => SchedEv.issue t :: linearLoop res m t tasks.length
  | _ => []

/-- Strictly alternating issue/complete pairs over a task list: the
shape of a fully serialised schedule. -/
def pairs (l : List Task) : List SchedEv :=
  l.flatMap (fun t => [SchedEv.issue t, SchedEv.complete t])

theorem updateResult_cmds (m : Model) (e : TaskResultMsg) :
    (updateResult m e).2 = [Cmd.quit] ∨ (updateResult m e).2 = [] ∨
      ((updateResult m e).2 =
          [Cmd.runTask (m.tasks.getD (m.currentTask + 1) default)] ∧
        m.currentTask + 1 < m.tasks.length) := by
  simp only [updateResult]
  by_cases hA : allDone (setAssoc m.states (taskKey e.task)
      (if e.result.error.isSome then TaskState.Failed else TaskState.Success)) = true
  · left; simp [hA]
  · by_cases hB : (m.linear && decide (m.currentTask + 1 < m.tasks.length)) = true
    · right; right
      constructor
      · simp [hA, hB]
      · rw [Bool.and_eq_true] at hB
        exact of_decide_eq_true hB.2
    · right; left
      simp [hA, hB]

theorem pairs_cons (t : Task) (l : List Task) :
    pairs (t :: l) = SchedEv.issue t :: SchedEv.complete t :: pairs l := rfl

theorem linearLoop_pairs (tasks : List Task) (res : Nat → ExecResult) :
    ∀ (fuel : Nat) (m : Model) (c : Nat),
      m.tasks = tasks → m.linear = true → m.currentTask = c →
      c < tasks.length → tasks.length ≤ c + fuel →
      ∃ j, 1 ≤ j ∧ c + j ≤ tasks.length ∧
        SchedEv.issue (tasks.getD c default) ::
            linearLoop res m (tasks.getD c default) fuel =
          pairs ((tasks.drop c).take j) := by
  intro fuel
  induction fuel with
  | zero => intro m c _ _ _ hlt hle; omega
  | succ fuel ih =>
    intro m c htasks hlin hcur hlt hle
    have hdrop : tasks.drop c = tasks[c] :: tasks.drop (c + 1) :=
      List.drop_eq_getElem_cons hlt
    have hgetD : tasks.getD c default = tasks[c] := by
      simp [List.getD_eq_getElem?_getD, List.getElem?_eq_getElem hlt]
    rcases updateResult_cmds m ⟨tasks.getD c default, res m.currentTask⟩ with
      hc | hc | ⟨hc, hlt2⟩
    · refine ⟨1, le_refl 1, by omega, ?_⟩
      simp only [linearLoop]
      rw [hc, hdrop]
      rw [← hgetD]
      rfl
    · refine ⟨1, le_refl 1, by omega, ?_⟩
      simp only [linearLoop]
      rw [hc, hdrop]
      rw [← hgetD]
      rfl
    · rw [htasks] at hlt2
      rw [hcur] at hlt2
      have hu : m.tasks.getD (m.currentTask + 1) default =
          tasks.getD (c + 1) default := by rw [htasks, hcur]
      have hnext := ih
        ((updateResult m ⟨tasks.getD c default, res m.currentTask⟩).1) (c + 1)
        (by rw [updateResult_tasks, htasks])
        (by rw [updateResult_linear, hlin])
        (by rw [updateResult_currentTask, hcur])
        hlt2 (by omega)
      obtain ⟨j, hj1, hj2, heq⟩ := hnext
      refine ⟨j + 1, by omega, by omega, ?_⟩
      have htake : (tasks[c] :: tasks.drop (c + 1)).take (j + 1) =
          tasks[c] :: (tasks.drop (c + 1)).take j := rfl
      simp only [linearLoop]
      rw [hc, hu, hdrop, htake, pairs_cons, ← hgetD, ← heq]

/-- C7: in a linear-mode run with a nonempty task list, the schedule
is exactly `issue t0, complete t0, issue t1, complete t1, ...` over a
prefix of the resolved list: exactly one invocation is issued at
start (the first task), every later invocation is issued only after
the completion of the previous one has been processed, invocations
follow the resolved order, and at most one invocation is outstanding
at any point. -/
theorem linear_mode_schedule (op : Operation) (tasks : List Task) (v f : Bool)
    (res : Nat → ExecResult) (h : tasks ≠ []) :
    ∃ m, 1 ≤ m ∧ m ≤ tasks.length ∧
      linearRun op tasks v f res = pairs (tasks.take m) := by
  have hlt : 0 < tasks.length := List.length_pos.mpr h
  have hloop := linearLoop_pairs tasks res tasks.length
    (NewModel op tasks v f true) 0 rfl rfl rfl hlt (by omega)
  obtain ⟨j, hj1, hj2, heq⟩ := hloop
  obtain ⟨t0, rest, rfl⟩ := List.exists_cons_of_ne_nil h
  refine ⟨j, hj1, by omega, ?_⟩
  have hrun : linearRun op (t0 :: rest) v f res =
      SchedEv.issue ((t0 :: rest).getD 0 default) ::
        linearLoop res (NewModel op (t0 :: rest) v f true)
          ((t0 :: rest).getD 0 default) (t0 :: rest).length := rfl
  rw [hrun, heq]
  simp

theorem linear_mode_schedule_witness :
    tasksC3 ≠ [] ∧
    ∃ m, 1 ≤ m ∧ m ≤ tasksC3.length ∧
      linearRun Operation.Push tasksC3 false false (fun _ => ⟨"", none⟩) =
        pairs (tasksC3.take m) :=
  ⟨by decide,
    linear_mode_schedule Operation.Push tasksC3 false false
      (fun _ => ⟨"", none⟩) (by decide)⟩

end Mugi
